import Mathlib

/-!
Shallow embedding of the country-guesser streaming recognizer
(`src/main.py`, with the vocabulary-file generator in
`src/country_extractor.py`).

Words and scanned text are modelled as `List Char`; the Aho-Corasick
automaton (`ahocorasick.Automaton` with `add_word`/`make_automaton`/`iter`)
is modelled as a finite pattern-to-value map together with an occurrence
enumerator `autoIter` that reports every occurrence of every stored
pattern in non-decreasing end-offset order, which is the library's
documented contract used by `matcher_loop`.

The per-session pipeline (`websocket_endpoint`) is modelled as a state
machine over a `SessionState`: producer appends (`word_stream.extend`
with `deque(maxlen=...)` eviction) and matcher ticks (`matcher_loop`
body) interleave as a list of operations, mirroring the cooperative
single-threaded scheduling of the two asyncio tasks.
-/

/-- A word of the token stream: a list of characters. -/
abbrev Word := List Char

/-- The compiled automaton: stored (pattern, value) pairs with unique
pattern keys.  `add_word` (below) keeps keys unique by replacement. -/
abbrev Automaton := List (Word × Word)

/-- `Automaton.add_word A key value`: store `value` under `key`,
replacing any previous value for the identical key — the dictionary
semantics of `ahocorasick.Automaton.add_word`. -/
def Automaton.add_word (A : Automaton) (key val : Word) : Automaton :=
  A.filter (fun p => p.1 ≠ key) ++ [(key, val)]

/-- Building the automaton in `load_and_build_automaton` (src/main.py
lines 57-66): all country names are added first, each mapping to itself;
then all alternates are added, each mapping to its official full name. -/
def buildAutomaton (country_names : List Word) (alternates : List (Word × Word)) :
    Automaton :=
  (alternates.foldl (fun A p => A.add_word p.1 p.2)
    (country_names.foldl (fun A n => A.add_word n n) []))

/-- `A.iter text`: every occurrence of every stored pattern inside
`text`, as `(end_index, value)` pairs in non-decreasing `end_index`
order — the contract of `ahocorasick.Automaton.iter` relied upon by
`matcher_loop`.  A pattern occurs with end index `i` exactly when it is
a non-empty suffix of `text.take (i+1)`. -/
def autoIter (A : Automaton) (text : List Char) : List (Nat × Word) :=
  (List.range text.length).flatMap (fun i =>
    (A.filter (fun p => decide (p.1 ≠ []) && p.1.isSuffixOf (text.take (i + 1)))).map
      (fun p => (i, p.2)))

/-- `" ".join(word_stream)` (src/main.py line 89). -/
def joinWords : List Word → List Char
  | [] => []
  | [w] => w
  | w :: w2 :: ws => w ++ ' ' :: joinWords (w2 :: ws)

/-- `text.count(' ')` on a character list (src/main.py line 103). -/
def countSpaces (s : List Char) : Nat := s.count ' '

/-- The consumption loop of `matcher_loop` (src/main.py lines 104-106):
pop `n` words from the head, each pop guarded by a non-emptiness check,
so the count clamps to the current length. -/
def consume : List Word → Nat → List Word
  | buf, 0 => buf
  | [], _ + 1 => []
  | _ :: rest, n + 1 => consume rest n

/-- One iteration of the `for end_index, canonical_name in A.iter(...)`
loop of `matcher_loop` (src/main.py lines 94-100) on the state
(guessed_countries, events sent so far, last_match_end_index):
a not-yet-guessed canonical name is added to the set and its event is
sent; every occurrence updates `last_match_end_index` to
`end_index + 1`. -/
def stepOcc (st : List Word × List Word × Nat) (occ : Nat × Word) :
    List Word × List Word × Nat :=
  if occ.2 ∈ st.1 then (st.1, st.2.1, occ.1 + 1)
  else (occ.2 :: st.1, st.2.1 ++ [occ.2], occ.1 + 1)

/-- The number of words `matcher_loop` removes in one tick
(src/main.py lines 102-103): zero when `last_match_end_index` stayed 0,
otherwise the count of spaces in the scanned text up to that index,
plus one. -/
def numConsumed (A : Automaton) (buf : List Word) (g : List Word) : Nat :=
  let S := joinWords buf
  let r := (autoIter A S).foldl stepOcc (g, [], 0)
  if r.2.2 > 0 then countSpaces (S.take r.2.2) + 1 else 0

/-- One full tick of `matcher_loop` (src/main.py lines 89-106) on
buffer `buf` and guessed-set `g`: scan the snapshot, emit events for
newly guessed countries, then consume the processed prefix.  Returns
(new guessed set, events sent this tick, new buffer). -/
def matcherTick (A : Automaton) (buf : List Word) (g : List Word) :
    List Word × List Word × List Word :=
  let S := joinWords buf
  let r := (autoIter A S).foldl stepOcc (g, [], 0)
  (r.1, r.2.1, consume buf (numConsumed A buf g))

/-- Appending one transcribed batch to the session's
`deque(maxlen=capacity)` (src/main.py lines 137, 154): new words go to
the tail and the oldest words beyond `capacity` are silently dropped. -/
def appendBatch (capacity : Nat) (buf new : List Word) : List Word :=
  let b := buf ++ new
  b.drop (b.length - capacity)

/-- One scheduled step of a session: either the producer task appends a
batch of words, or the consumer task runs one matcher tick. -/
inductive Op where
  | append (ws : List Word)
  | tick
deriving DecidableEq

/-- Per-session state: the token buffer, the `guessed_countries` set and
the stream of events sent so far (src/main.py lines 152-154). -/
structure SessionState where
  buf : List Word
  guessed : List Word
  events : List Word
deriving DecidableEq

/-- Effect of one scheduled step on the session state. -/
def stepOp (A : Automaton) (capacity : Nat) (st : SessionState) : Op → SessionState
  | .append ws => { st with buf := appendBatch capacity st.buf ws }
  | .tick =>
    let r := matcherTick A st.buf st.guessed
    { buf := r.2.2, guessed := r.1, events := st.events ++ r.2.1 }

/-- A session run (`websocket_endpoint`, src/main.py lines 148-157):
starting from an empty buffer, empty guessed set and no events, the
producer and consumer steps are applied in schedule order. -/
def runSession (A : Automaton) (capacity : Nat) (ops : List Op) : SessionState :=
  ops.foldl (stepOp A capacity) ⟨[], [], []⟩

/-- Characters stripped by `segment.text.lower().strip(" .?!,")`
(src/main.py line 134). -/
def isStripped (ch : Char) : Bool :=
  ch = ' ' || ch = '.' || ch = '?' || ch = '!' || ch = ','

/-- Python `str.strip(" .?!,")`: drop the stripped characters from both
ends. -/
def stripEdges (s : List Char) : List Char :=
  ((s.dropWhile isStripped).reverse.dropWhile isStripped).reverse

/-- Python `str.split()` with no separator: split on runs of
whitespace, dropping empty pieces (src/main.py line 136).  Scanned
segments contain no newlines, so a space is the relevant separator. -/
def splitWords (s : List Char) : List Word :=
  let r := s.foldr
    (fun ch acc =>
      if ch = ' ' then ([], if acc.1 = [] then acc.2 else acc.1 :: acc.2)
      else (ch :: acc.1, acc.2))
    (([] : Word), ([] : List Word))
  if r.1 = [] then r.2 else r.1 :: r.2

/-- The words appended for one transcribed segment (src/main.py lines
134-137): lowercase, strip `" .?!,"` from the edges, and if the result
is non-empty split it into words. -/
def segmentWords (seg : List Char) : List Word :=
  let clean := stripEdges (seg.map Char.toLower)
  if clean.isEmpty then [] else splitWords clean

/-- What the transcription collaborator produced during one producer
tick (src/main.py lines 122-145): nothing accumulated, a list of text
segments, or a raised exception. -/
inductive ProducerTick where
  | silent
  | speech (segments : List (List Char))
  | failure
deriving DecidableEq

/-- The words appended to the word stream over a whole run of
`transcription_loop` (src/main.py lines 118-145).  A silent tick is
skipped; a speech tick appends the cleaned words of each segment; on a
raised exception the handler logs and `break`s, so the loop terminates
and no later tick is processed. -/
def transcriptionRun : List ProducerTick → List Word
  | [] => []
  | .silent :: rest => transcriptionRun rest
  | .speech segs :: rest => segs.flatMap segmentWords ++ transcriptionRun rest
  | .failure :: _ => []

/-- Modelled from the spec (§7, "Per-tick transcription errors: logged;
that tick's text is treated as empty; loop continues on the next
interval"): the producer loop under the spec's error policy, for
comparison with `transcriptionRun`. -/
def transcriptionRunSpec : List ProducerTick → List Word
  | [] => []
  | .silent :: rest => transcriptionRunSpec rest
  | .speech segs :: rest => segs.flatMap segmentWords ++ transcriptionRunSpec rest
  | .failure :: rest => transcriptionRunSpec rest

/-- Whitespace characters removed by Python `str.strip()` with no
argument (src/main.py line 36). -/
def isPyWhitespace (ch : Char) : Bool :=
  ch = ' ' || ch = Char.ofNat 9 || ch = Char.ofNat 10 || ch = Char.ofNat 13

/-- Python `line.strip()`. -/
def pyStrip (s : List Char) : List Char :=
  ((s.dropWhile isPyWhitespace).reverse.dropWhile isPyWhitespace).reverse

/-- Python `line.split("->", 1)` when `"->" in line`: split at the
first occurrence of the arrow, returning the parts before and after. -/
def splitOnArrow : List Char → Option (List Char × List Char)
  | [] => none
  | '-' :: '>' :: rest => some ([], rest)
  | ch :: rest => (splitOnArrow rest).map (fun p => (ch :: p.1, p.2))

/-- Which section of the vocabulary file the parser is inside
(src/main.py line 34: `current_section = None`). -/
inductive Sec where
  | outside
  | countries
  | alternates
deriving DecidableEq

/-- Python `set.add`: keep the element set duplicate-free. -/
def setAdd (l : List Word) (x : Word) : List Word :=
  if x ∈ l then l else l ++ [x]

/-- Python dict assignment `d[k] = v`: overwrite the existing binding
for `k`, or append a new one. -/
def dictSet (d : List (Word × Word)) (k v : Word) : List (Word × Word) :=
  if d.any (fun p => p.1 = k) then d.map (fun p => if p.1 = k then (k, v) else p)
  else d ++ [(k, v)]

/-- Processing one line of the vocabulary file
(src/main.py lines 35-49): strip, skip empty lines, switch section on a
header, and otherwise record the line according to the current section;
alternates lines without the arrow are silently skipped. -/
def parseLine (st : Sec × List Word × List (Word × Word)) (rawLine : List Char) :
    Sec × List Word × List (Word × Word) :=
  let line := pyStrip rawLine
  if line = [] then st
  else if line = (r"[COUNTRIES]").toList then (.countries, st.2)
  else if line = (r"[ALTERNATES]").toList then (.alternates, st.2)
  else
    match st.1 with
    | .countries => (st.1, setAdd st.2.1 line, st.2.2)
    | .alternates =>
      match splitOnArrow line with
      | some p => (st.1, st.2.1, dictSet st.2.2 (pyStrip p.1) (pyStrip p.2))
      | none => st
    | .outside => st

/-- The country-name set and alternates map read from the vocabulary
file's lines (src/main.py lines 29-49). -/
def parseVocab (lines : List (List Char)) : List Word × List (Word × Word) :=
  (lines.foldl parseLine (Sec.outside, [], [])).2

/-- `load_and_build_automaton` (src/main.py lines 24-67).  The file is
`none` when missing: `FileNotFoundError` is caught and the process
exits fatally, modelled as `Except.error`.  Otherwise the lines are
parsed and the automaton is built — with no emptiness check of any
kind — and the automaton is returned together with the country-name
set. -/
def load_and_build_automaton (file : Option (List (List Char))) :
    Except Unit (Automaton × List Word) :=
  match file with
  | none => .error ()
  | some lines =>
    let v := parseVocab lines
    .ok (buildAutomaton v.1 v.2, v.1)

/-- Matcher state for the run in which sends can fail: the guessed set,
the delivered events, and whether the loop has aborted (the exception
raised by `websocket.send_json` escapes to the handler of
`matcher_loop`, which `break`s). -/
structure MState where
  g : List Word
  ev : List Word
  aborted : Bool
deriving DecidableEq

/-- One occurrence of the `matcher_loop` scan when the send of a term
`t` with `sendOk t = false` raises (src/main.py lines 94-98): the term
is added to `guessed_countries` strictly before `send_json` is awaited,
so on a send failure the set keeps the term, the event is not delivered
and the loop aborts; once aborted nothing further happens. -/
def stepOccF (sendOk : Word → Bool) (st : MState) (occ : Nat × Word) : MState :=
  if st.aborted then st
  else if occ.2 ∈ st.g then st
  else if sendOk occ.2 then { g := occ.2 :: st.g, ev := st.ev ++ [occ.2], aborted := false }
  else { g := occ.2 :: st.g, ev := st.ev, aborted := true }

/-- Processing one tick's occurrence list with fallible sends. -/
def processOccsF (sendOk : Word → Bool) (st : MState) (occs : List (Nat × Word)) : MState :=
  occs.foldl (stepOccF sendOk) st

/-! ## Basic lemmas about the matcher's occurrence fold -/

theorem stepOcc_of_mem {g ev : List Word} {n : Nat} {occ : Nat × Word}
    (h : occ.2 ∈ g) : stepOcc (g, ev, n) occ = (g, ev, occ.1 + 1) := by
  simp [stepOcc, h]

theorem stepOcc_of_not_mem {g ev : List Word} {n : Nat} {occ : Nat × Word}
    (h : occ.2 ∉ g) : stepOcc (g, ev, n) occ = (occ.2 :: g, ev ++ [occ.2], occ.1 + 1) := by
  simp [stepOcc, h]

theorem foldOcc_guessed_mono (occs : List (Nat × Word)) :
    ∀ g ev n x, x ∈ g → x ∈ (occs.foldl stepOcc (g, ev, n)).1 := by
  induction occs with
  | nil => intro g ev n x hx; simpa using hx
  | cons occ rest ih =>
    intro g ev n x hx
    rw [List.foldl_cons]
    by_cases h : occ.2 ∈ g
    · rw [stepOcc_of_mem h]; exact ih _ _ _ _ hx
    · rw [stepOcc_of_not_mem h]; exact ih _ _ _ _ (List.mem_cons_of_mem _ hx)

theorem foldOcc_occ_mem (occs : List (Nat × Word)) :
    ∀ g ev n p, p ∈ occs → p.2 ∈ (occs.foldl stepOcc (g, ev, n)).1 := by
  induction occs with
  | nil => intro g ev n p hp; simp at hp
  | cons occ rest ih =>
    intro g ev n p hp
    rw [List.foldl_cons]
    rcases List.mem_cons.mp hp with hp | hp
    · subst hp
      by_cases h : p.2 ∈ g
      · rw [stepOcc_of_mem h]; exact foldOcc_guessed_mono rest _ _ _ _ h
      · rw [stepOcc_of_not_mem h]
        exact foldOcc_guessed_mono rest _ _ _ _ (List.mem_cons_self _ _)
    · by_cases h : occ.2 ∈ g
      · rw [stepOcc_of_mem h]; exact ih _ _ _ _ hp
      · rw [stepOcc_of_not_mem h]; exact ih _ _ _ _ hp

theorem foldOcc_ev_mono (occs : List (Nat × Word)) :
    ∀ g ev n x, x ∈ ev → x ∈ (occs.foldl stepOcc (g, ev, n)).2.1 := by
  induction occs with
  | nil => intro g ev n x hx; simpa using hx
  | cons occ rest ih =>
    intro g ev n x hx
    rw [List.foldl_cons]
    by_cases h : occ.2 ∈ g
    · rw [stepOcc_of_mem h]; exact ih _ _ _ _ hx
    · rw [stepOcc_of_not_mem h]; exact ih _ _ _ _ (List.mem_append_left _ hx)

theorem foldOcc_guessed_src (occs : List (Nat × Word)) :
    ∀ g ev n x, x ∈ (occs.foldl stepOcc (g, ev, n)).1 →
      x ∈ g ∨ x ∈ (occs.foldl stepOcc (g, ev, n)).2.1 := by
  induction occs with
  | nil => intro g ev n x hx; exact Or.inl (by simpa using hx)
  | cons occ rest ih =>
    intro g ev n x hx
    rw [List.foldl_cons] at hx ⊢
    by_cases h : occ.2 ∈ g
    · rw [stepOcc_of_mem h] at hx ⊢; exact ih _ _ _ _ hx
    · rw [stepOcc_of_not_mem h] at hx ⊢
      rcases ih _ _ _ _ hx with hx | hx
      · rcases List.mem_cons.mp hx with hx | hx
        · subst hx
          exact Or.inr (foldOcc_ev_mono rest _ _ _ _ (List.mem_append_right _ (List.mem_singleton_self _)))
        · exact Or.inl hx
      · exact Or.inr hx

theorem foldOcc_ev_src (occs : List (Nat × Word)) :
    ∀ g ev n x, x ∈ (occs.foldl stepOcc (g, ev, n)).2.1 →
      x ∈ ev ∨ ∃ p ∈ occs, p.2 = x := by
  induction occs with
  | nil => intro g ev n x hx; exact Or.inl (by simpa using hx)
  | cons occ rest ih =>
    intro g ev n x hx
    rw [List.foldl_cons] at hx
    by_cases h : occ.2 ∈ g
    · rw [stepOcc_of_mem h] at hx
      rcases ih _ _ _ _ hx with hx | ⟨p, hp, hpx⟩
      · exact Or.inl hx
      · exact Or.inr ⟨p, List.mem_cons_of_mem _ hp, hpx⟩
    · rw [stepOcc_of_not_mem h] at hx
      rcases ih _ _ _ _ hx with hx | ⟨p, hp, hpx⟩
      · rcases List.mem_append.mp hx with hx | hx
        · exact Or.inl hx
        · exact Or.inr ⟨occ, List.mem_cons_self _ _, (List.mem_singleton.mp hx).symm⟩
      · exact Or.inr ⟨p, List.mem_cons_of_mem _ hp, hpx⟩

theorem foldOcc_ev_nodup (occs : List (Nat × Word)) :
    ∀ g ev n, ev.Nodup → (∀ x ∈ ev, x ∈ g) →
      (occs.foldl stepOcc (g, ev, n)).2.1.Nodup ∧
      (∀ x ∈ (occs.foldl stepOcc (g, ev, n)).2.1, x ∈ (occs.foldl stepOcc (g, ev, n)).1) ∧
      (∀ x ∈ (occs.foldl stepOcc (g, ev, n)).2.1, x ∈ ev ∨ x ∉ g) := by
  induction occs with
  | nil =>
    intro g ev n hnd hsub
    refine ⟨by simpa using hnd, ?_, ?_⟩
    · intro x hx; simp only [List.foldl_nil] at hx ⊢; exact hsub x hx
    · intro x hx; simp only [List.foldl_nil] at hx; exact Or.inl hx
  | cons occ rest ih =>
    intro g ev n hnd hsub
    rw [List.foldl_cons]
    by_cases h : occ.2 ∈ g
    · rw [stepOcc_of_mem h]
      exact ih _ _ _ hnd hsub
    · rw [stepOcc_of_not_mem h]
      have hnd' : (ev ++ [occ.2]).Nodup := by
        rw [List.nodup_append]
        refine ⟨hnd, List.nodup_singleton _, ?_⟩
        intro x hx hx'
        rw [List.mem_singleton] at hx'
        subst hx'
        exact h (hsub _ hx)
      have hsub' : ∀ x ∈ ev ++ [occ.2], x ∈ occ.2 :: g := by
        intro x hx
        rcases List.mem_append.mp hx with hx | hx
        · exact List.mem_cons_of_mem _ (hsub x hx)
        · rw [List.mem_singleton] at hx; subst hx; exact List.mem_cons_self _ _
      rcases ih (occ.2 :: g) (ev ++ [occ.2]) (occ.1 + 1) hnd' hsub' with ⟨h1, h2, h3⟩
      refine ⟨h1, h2, ?_⟩
      intro x hx
      rcases h3 x hx with hx' | hx'
      · rcases List.mem_append.mp hx' with hx' | hx'
        · exact Or.inl hx'
        · rw [List.mem_singleton] at hx'; subst hx'; exact Or.inr h
      · exact Or.inr (fun hxg => hx' (List.mem_cons_of_mem _ hxg))

/-! ## Session invariant: at most one event per canonical term (C3) -/

/-- The per-session invariant: the delivered event stream has no
duplicates, and every delivered term is recorded in
`guessed_countries`. -/
def SessInv (st : SessionState) : Prop :=
  st.events.Nodup ∧ ∀ x ∈ st.events, x ∈ st.guessed

theorem sessInv_init : SessInv ⟨[], [], []⟩ := ⟨List.nodup_nil, by intro x hx; simp at hx⟩

theorem sessInv_step (A : Automaton) (capacity : Nat) (st : SessionState) (op : Op)
    (h : SessInv st) : SessInv (stepOp A capacity st op) := by
  rcases h with ⟨hnd, hsub⟩
  cases op with
  | append ws => exact ⟨hnd, hsub⟩
  | tick =>
    simp only [stepOp, matcherTick]
    set occs := autoIter A (joinWords st.buf) with hoccs
    rcases foldOcc_ev_nodup occs st.guessed [] 0 List.nodup_nil (by intro x hx; simp at hx)
      with ⟨h1, h2, h3⟩
    constructor
    · rw [List.nodup_append]
      refine ⟨hnd, h1, ?_⟩
      intro x hx hx'
      rcases h3 x hx' with hx'' | hx''
      · simp at hx''
      · exact hx'' (hsub x hx)
    · intro x hx
      rcases List.mem_append.mp hx with hx | hx
      · exact foldOcc_guessed_mono occs _ _ _ _ (hsub x hx)
      · exact h2 x hx

theorem sessInv_run (A : Automaton) (capacity : Nat) (ops : List Op) :
    SessInv (runSession A capacity ops) := by
  rw [runSession]
  have : ∀ (l : List Op) (st : SessionState), SessInv st →
      SessInv (l.foldl (stepOp A capacity) st) := by
    intro l
    induction l with
    | nil => intro st h; simpa using h
    | cons op rest ih =>
      intro st h
      rw [List.foldl_cons]
      exact ih _ (sessInv_step A capacity st op h)
  exact this ops _ sessInv_init

theorem nodup_count_le_one {l : List Word} (h : l.Nodup) (t : Word) :
    l.count t ≤ 1 := by
  induction l with
  | nil => simp
  | cons w rest ih =>
    rcases List.nodup_cons.mp h with ⟨hw, hrest⟩
    rw [List.count_cons]
    by_cases ht : w = t
    · subst ht
      have : rest.count w = 0 := List.count_eq_zero.mpr hw
      simp [this]
    · simp only [beq_iff_eq, ht, if_false]
      simpa using ih hrest

/-- C3: For every session and every canonical term, the session's
emitted event stream contains at most one event for that term, no
matter how many times the term occurs in the scanned text, across how
many ticks, or through how many distinct aliases: the whole event
stream is duplicate-free, so every term's event count is at most 1. -/
theorem c3_events_at_most_once (A : Automaton) (capacity : Nat) (ops : List Op)
    (t : Word) :
    (runSession A capacity ops).events.Nodup ∧
    (runSession A capacity ops).events.count t ≤ 1 := by
  have h := (sessInv_run A capacity ops).1
  exact ⟨h, nodup_count_le_one h t⟩

/-! ## The consume operation (C9) -/

theorem consume_eq_drop : ∀ (buf : List Word) (n : Nat), consume buf n = buf.drop n := by
  intro buf
  induction buf with
  | nil => intro n; cases n <;> rfl
  | cons w rest ih =>
    intro n
    cases n with
    | zero => rfl
    | succ m => rw [consume, List.drop_succ_cons]; exact ih m

/-- C9: the consume operation is total: consuming 0 words is a no-op;
when the requested count exceeds the buffer's length it clamps, removing
only the words present (the result is empty, and never an error — the
operation is a total function equal to `List.drop`). -/
theorem c9_consume_total :
    (∀ buf : List Word, consume buf 0 = buf) ∧
    (∀ (buf : List Word) (n : Nat), buf.length ≤ n → consume buf n = []) ∧
    (∀ (buf : List Word) (n : Nat), consume buf n = buf.drop n) := by
  refine ⟨fun buf => by rw [consume_eq_drop]; exact List.drop_zero buf, ?_, consume_eq_drop⟩
  intro buf n h
  rw [consume_eq_drop]
  exact List.drop_eq_nil_of_le h

/-- Witness for C9 at a concrete input: consuming 0 from a two-word
buffer is a no-op, and consuming 5 from it clamps to removing both. -/
theorem c9_consume_total_witness :
    consume [['a'], ['b']] 0 = [['a'], ['b']] ∧
    ([['a'], ['b']] : List Word).length ≤ 5 ∧ consume [['a'], ['b']] 5 = [] :=
  ⟨c9_consume_total.1 [['a'], ['b']], by decide,
    c9_consume_total.2.1 [['a'], ['b']] 5 (by decide)⟩

/-! ## Token buffer capacity (C5) -/

theorem appendBatch_from_nil (capacity : Nat) (l : List Word) :
    appendBatch capacity [] l = l.drop (l.length - capacity) := by
  simp [appendBatch]

theorem appendBatch_eq_from_nil (capacity : Nat) (buf new : List Word) :
    appendBatch capacity buf new = appendBatch capacity [] (buf ++ new) := by
  simp [appendBatch]

theorem appendBatch_length (capacity : Nat) (buf new : List Word) :
    (appendBatch capacity buf new).length = min (buf ++ new).length capacity := by
  simp only [appendBatch, List.length_drop]
  omega

theorem appendBatch_of_ge (capacity : Nat) (pre rest : List Word)
    (h : capacity ≤ rest.length) :
    appendBatch capacity [] (pre ++ rest) = appendBatch capacity [] rest := by
  rw [appendBatch_from_nil, appendBatch_from_nil, List.length_append]
  have : pre.length + rest.length - capacity = pre.length + (rest.length - capacity) := by
    omega
  rw [this, List.drop_append]

theorem appendBatch_absorb (capacity : Nat) (l ys : List Word) :
    appendBatch capacity [] (appendBatch capacity [] l ++ ys) =
      appendBatch capacity [] (l ++ ys) := by
  by_cases h : l.length ≤ capacity
  · rw [appendBatch_from_nil capacity l]
    have : l.length - capacity = 0 := by omega
    rw [this, List.drop_zero]
  · rw [appendBatch_from_nil capacity l]
    have hlen : (l.drop (l.length - capacity)).length = capacity := by
      rw [List.length_drop]; omega
    conv_rhs => rw [← List.take_append_drop (l.length - capacity) l, List.append_assoc]
    rw [appendBatch_of_ge capacity _ (l.drop (l.length - capacity) ++ ys)
      (by rw [List.length_append, hlen]; omega)]

theorem foldl_appendBatch (capacity : Nat) :
    ∀ (batches : List (List Word)) (l : List Word),
      batches.foldl (appendBatch capacity) (appendBatch capacity [] l) =
        appendBatch capacity [] (l ++ batches.flatten) := by
  intro batches
  induction batches with
  | nil => intro l; simp
  | cons b rest ih =>
    intro l
    rw [List.foldl_cons, appendBatch_eq_from_nil, appendBatch_absorb, ih (l ++ b)]
    simp [List.append_assoc]

/-- The buffer after any sequence of producer batches, starting empty,
is the flattened word sequence with everything before the final
`capacity` words dropped. -/
theorem foldl_appendBatch_nil (capacity : Nat) (batches : List (List Word)) :
    batches.foldl (appendBatch capacity) [] =
      batches.flatten.drop (batches.flatten.length - capacity) := by
  have h0 : ([] : List Word) = appendBatch capacity [] [] := by simp [appendBatch]
  rw [h0, foldl_appendBatch, appendBatch_from_nil]
  simp

theorem runSession_buf_le (A : Automaton) (capacity : Nat) (ops : List Op) :
    (runSession A capacity ops).buf.length ≤ capacity ∨
      (runSession A capacity ops).buf = [] := by
  rw [runSession]
  have : ∀ (l : List Op) (st : SessionState),
      st.buf.length ≤ capacity ∨ st.buf = [] →
      (l.foldl (stepOp A capacity) st).buf.length ≤ capacity ∨
        (l.foldl (stepOp A capacity) st).buf = [] := by
    intro l
    induction l with
    | nil => intro st h; simpa using h
    | cons op rest ih =>
      intro st h
      rw [List.foldl_cons]
      apply ih
      cases op with
      | append ws =>
        left
        simp only [stepOp]
        rw [appendBatch_length]
        omega
      | tick =>
        simp only [stepOp, matcherTick]
        rw [consume_eq_drop]
        rcases h with h | h
        · left; rw [List.length_drop]; omega
        · right; simp [h]
  exact this ops _ (Or.inr rfl)

/-- C5: the token buffer's length never exceeds the configured capacity
in any session run; any sequence of producer batches starting from an
empty buffer leaves exactly the last `capacity` words of the flattened
sequence; hence after `capacity + k` words have been appended (k ≥ 1)
the oldest `k` words are absent from the buffer. -/
theorem c5_buffer_bounded :
    (∀ (A : Automaton) (capacity : Nat) (ops : List Op),
      (runSession A capacity ops).buf.length ≤ capacity) ∧
    (∀ (capacity : Nat) (batches : List (List Word)),
      batches.foldl (appendBatch capacity) [] =
        batches.flatten.drop (batches.flatten.length - capacity)) ∧
    (∀ (capacity k : Nat) (ws : List Word), ws.length = capacity + k →
      ws.Nodup →
      (ws.map (fun x => [x])).foldl (appendBatch capacity) [] = ws.drop k ∧
      ∀ w ∈ ws.take k, w ∉ (ws.map (fun x => [x])).foldl (appendBatch capacity) []) := by
  refine ⟨?_, foldl_appendBatch_nil, ?_⟩
  · intro A capacity ops
    rcases runSession_buf_le A capacity ops with h | h
    · exact h
    · rw [h]; exact Nat.zero_le _
  · intro capacity k ws hlen hnd
    have hflat : ∀ l : List Word, (l.map (fun x => [x])).flatten = l := by
      intro l
      induction l with
      | nil => rfl
      | cons w rest ih => simp [ih]
    have heq : (ws.map (fun x => [x])).foldl (appendBatch capacity) [] = ws.drop k := by
      rw [foldl_appendBatch_nil, hflat, hlen]
      congr 1
      omega
    refine ⟨heq, ?_⟩
    intro w hw
    rw [heq]
    have hdisj := List.disjoint_take_drop (m := k) (n := k) hnd le_rfl
    exact fun hcontra => hdisj hw hcontra

/-- Witness for C5 (Scenario C of the spec): capacity 3 with the four
words a, b, c, d appended leaves exactly b, c, d, and the evicted
oldest word a is absent. -/
theorem c5_buffer_bounded_witness :
    (runSession [] 3 [Op.append [['a'], ['b'], ['c'], ['d']]]).buf.length ≤ 3 ∧
    ((([['a'], ['b'], ['c'], ['d']] : List Word).map (fun x => [x])).foldl (appendBatch 3) [] =
        ([['a'], ['b'], ['c'], ['d']] : List Word).drop 1 ∧
      ∀ w ∈ ([['a'], ['b'], ['c'], ['d']] : List Word).take 1,
        w ∉ (([['a'], ['b'], ['c'], ['d']] : List Word).map (fun x => [x])).foldl
          (appendBatch 3) []) :=
  ⟨c5_buffer_bounded.1 [] 3 [Op.append [['a'], ['b'], ['c'], ['d']]],
    c5_buffer_bounded.2.2 3 1 [['a'], ['b'], ['c'], ['d']] (by decide) (by decide)⟩

/-! ## Producer-loop error handling (C1) -/

/-- Counterexample for C1: when the first producer tick raises a
transcription error and the next tick transcribes the word "chad", the
code appends nothing at all — the loop has terminated — whereas the
spec's continue-on-error loop appends "chad".  So a per-tick
transcription error does terminate the producer task. -/
theorem c1_counterexample :
    transcriptionRun [ProducerTick.failure, ProducerTick.speech [(r"chad").toList]] = [] ∧
    transcriptionRunSpec [ProducerTick.failure, ProducerTick.speech [(r"chad").toList]] =
      [(r"chad").toList] ∧
    transcriptionRun [ProducerTick.failure, ProducerTick.speech [(r"chad").toList]] ≠
      transcriptionRunSpec [ProducerTick.failure, ProducerTick.speech [(r"chad").toList]] := by
  refine ⟨rfl, ?_, ?_⟩ <;> decide

/-- C1 (amended): in the per-session transcription (producer) loop, a
tick in which transcription raises an error is logged and contributes
no words, and the loop terminates: every tick after the first failing
one is ignored.  On the error-free part of the schedule the code agrees
with the spec's continue-on-error loop. -/
theorem c1_producer_error_ends_loop (pre post : List ProducerTick)
    (h : ∀ t ∈ pre, t ≠ ProducerTick.failure) :
    transcriptionRun (pre ++ ProducerTick.failure :: post) = transcriptionRun pre ∧
    transcriptionRun pre = transcriptionRunSpec pre := by
  induction pre with
  | nil => exact ⟨rfl, rfl⟩
  | cons t rest ih =>
    have ht : t ≠ ProducerTick.failure := h t (List.mem_cons_self _ _)
    have hrest : ∀ x ∈ rest, x ≠ ProducerTick.failure :=
      fun x hx => h x (List.mem_cons_of_mem _ hx)
    rcases ih hrest with ⟨ih1, ih2⟩
    cases t with
    | silent =>
      constructor
      · simp only [List.cons_append, transcriptionRun]
        exact ih1
      · simp only [transcriptionRun, transcriptionRunSpec]
        exact ih2
    | speech segs =>
      constructor
      · simp only [List.cons_append, transcriptionRun]
        exact congrArg (segs.flatMap segmentWords ++ ·) ih1
      · simp only [transcriptionRun, transcriptionRunSpec]
        exact congrArg (segs.flatMap segmentWords ++ ·) ih2
    | failure => exact absurd rfl ht

/-- Witness for C1 (amended) at a concrete schedule: a speech tick, a
failing tick, then another speech tick; the run equals the run of the
error-free part alone. -/
theorem c1_producer_error_ends_loop_witness :
    (∀ t ∈ [ProducerTick.speech [(r"usa").toList]], t ≠ ProducerTick.failure) ∧
    (transcriptionRun ([ProducerTick.speech [(r"usa").toList]] ++
        ProducerTick.failure :: [ProducerTick.speech [(r"chad").toList]]) =
      transcriptionRun [ProducerTick.speech [(r"usa").toList]] ∧
      transcriptionRun [ProducerTick.speech [(r"usa").toList]] =
        transcriptionRunSpec [ProducerTick.speech [(r"usa").toList]]) :=
  ⟨by decide,
    c1_producer_error_ends_loop [ProducerTick.speech [(r"usa").toList]]
      [ProducerTick.speech [(r"chad").toList]] (by decide)⟩

/-! ## Vocabulary loading at startup (C2) -/

/-- Counterexample for C2: a vocabulary file that exists but is empty
(zero lines, hence zero canonical terms and zero aliases) does not
cause a fatal startup error — `load_and_build_automaton` happily
returns an empty automaton, because the code only catches a missing
file and never checks the vocabulary for emptiness. -/
theorem c2_counterexample :
    parseVocab [] = ([], []) ∧
    load_and_build_automaton (some []) = Except.ok ([], []) := by
  exact ⟨rfl, rfl⟩

/-- C2 (amended): at startup the vocabulary compiler fails fatally when
the vocabulary file is missing, and only then: with any existing file —
in particular one yielding an empty vocabulary — it succeeds and
returns the automaton built from whatever was parsed. -/
theorem c2_missing_file_fatal :
    load_and_build_automaton none = Except.error () ∧
    ∀ lines : List (List Char),
      load_and_build_automaton (some lines) =
        Except.ok (buildAutomaton (parseVocab lines).1 (parseVocab lines).2,
          (parseVocab lines).1) :=
  ⟨rfl, fun _ => rfl⟩

/-! ## Properties of the occurrence enumerator (C6) -/

theorem pairwise_of_total {α : Type} {R : α → α → Prop} (h : ∀ a b, R a b) :
    ∀ l : List α, l.Pairwise R := by
  intro l
  induction l with
  | nil => exact List.Pairwise.nil
  | cons a rest ih => exact List.Pairwise.cons (fun b _ => h a b) ih

/-- Occurrences are reported in non-decreasing end-offset order. -/
theorem autoIter_sorted (A : Automaton) (text : List Char) :
    (autoIter A text).Pairwise (fun a b => a.1 ≤ b.1) := by
  rw [autoIter, List.flatMap_def]
  apply List.pairwise_flatten.mpr
  constructor
  · intro l hl
    rcases List.mem_map.mp hl with ⟨i, _, rfl⟩
    exact List.pairwise_map.mpr (pairwise_of_total (fun a b => le_refl i) _)
  · apply List.pairwise_map.mpr
    refine List.Pairwise.imp ?_ (List.pairwise_lt_range _)
    intro i j hij
    intro x hx y hy
    rcases List.mem_map.mp hx with ⟨p, _, rfl⟩
    rcases List.mem_map.mp hy with ⟨q, _, rfl⟩
    exact Nat.le_of_lt hij

/-- Every reported end offset is inside the scanned text. -/
theorem autoIter_end_lt {A : Automaton} {text : List Char} {i : Nat} {v : Word}
    (h : (i, v) ∈ autoIter A text) : i < text.length := by
  rw [autoIter] at h
  rcases List.mem_flatMap.mp h with ⟨j, hj, hx⟩
  rcases List.mem_map.mp hx with ⟨p, _, heq⟩
  cases heq
  exact List.mem_range.mp hj

/-- Every occurrence's value is the value stored for one of the
automaton's patterns, and that pattern really ends at the reported
offset. -/
theorem autoIter_value_src {A : Automaton} {text : List Char} {x : Nat × Word}
    (h : x ∈ autoIter A text) :
    ∃ pat, (pat, x.2) ∈ A ∧ pat ≠ [] ∧ pat <:+ text.take (x.1 + 1) := by
  rw [autoIter] at h
  rcases List.mem_flatMap.mp h with ⟨i, _, hx⟩
  rcases List.mem_map.mp hx with ⟨p, hp, heq⟩
  rcases List.mem_filter.mp hp with ⟨hpA, hcond⟩
  rw [Bool.and_eq_true] at hcond
  cases heq
  refine ⟨p.1, ?_, of_decide_eq_true hcond.1, List.isSuffixOf_iff_suffix.mp hcond.2⟩
  have : (p.1, p.2) = p := rfl
  rw [this]
  exact hpA

/-- Completeness of the scan: a stored non-empty pattern occurring
anywhere inside the text is reported (with its value). -/
theorem autoIter_complete {A : Automaton} {pat v : Word} {text : List Char}
    (hA : (pat, v) ∈ A) (hne : pat ≠ []) (hinf : pat <:+: text) :
    ∃ i, (i, v) ∈ autoIter A text := by
  rcases hinf with ⟨s, t, rfl⟩
  have hpos : 1 ≤ pat.length := List.length_pos.mpr hne
  refine ⟨s.length + pat.length - 1, ?_⟩
  rw [autoIter]
  apply List.mem_flatMap.mpr
  refine ⟨s.length + pat.length - 1, ?_, ?_⟩
  · apply List.mem_range.mpr
    simp only [List.length_append]
    omega
  · apply List.mem_map.mpr
    refine ⟨(pat, v), ?_, rfl⟩
    apply List.mem_filter.mpr
    refine ⟨hA, ?_⟩
    rw [Bool.and_eq_true]
    refine ⟨decide_eq_true hne, ?_⟩
    apply List.isSuffixOf_iff_suffix.mpr
    have hlen : s.length + pat.length - 1 + 1 = (s ++ pat).length := by
      rw [List.length_append]; omega
    rw [hlen, List.take_left]
    exact List.suffix_append s pat

/-- The events of one tick are (in order) a subsequence of the values
of the occurrences reported for the snapshot. -/
theorem foldOcc_ev_sublist (occs : List (Nat × Word)) :
    ∀ g ev n, ∃ new, (occs.foldl stepOcc (g, ev, n)).2.1 = ev ++ new ∧
      new.Sublist (occs.map Prod.snd) := by
  induction occs with
  | nil => intro g ev n; exact ⟨[], by simp, by simp⟩
  | cons occ rest ih =>
    intro g ev n
    rw [List.foldl_cons, List.map_cons]
    by_cases h : occ.2 ∈ g
    · rw [stepOcc_of_mem h]
      rcases ih g ev (occ.1 + 1) with ⟨new, h1, h2⟩
      exact ⟨new, h1, h2.cons _⟩
    · rw [stepOcc_of_not_mem h]
      rcases ih (occ.2 :: g) (ev ++ [occ.2]) (occ.1 + 1) with ⟨new, h1, h2⟩
      refine ⟨occ.2 :: new, ?_, h2.cons₂ _⟩
      rw [h1, List.append_assoc]
      rfl

/-- Every event a session delivers carries a value stored in the
automaton (the canonical term), never a raw pattern key. -/
theorem runSession_events_src (A : Automaton) (capacity : Nat) (ops : List Op) :
    ∀ x ∈ (runSession A capacity ops).events, ∃ pat, (pat, x) ∈ A := by
  rw [runSession]
  have main : ∀ (l : List Op) (st : SessionState),
      (∀ x ∈ st.events, ∃ pat, (pat, x) ∈ A) →
      ∀ x ∈ (l.foldl (stepOp A capacity) st).events, ∃ pat, (pat, x) ∈ A := by
    intro l
    induction l with
    | nil => intro st h; simpa using h
    | cons op rest ih =>
      intro st h
      rw [List.foldl_cons]
      apply ih
      cases op with
      | append ws => exact h
      | tick =>
        intro x hx
        simp only [stepOp, matcherTick] at hx
        rcases List.mem_append.mp hx with hx | hx
        · exact h x hx
        · rcases foldOcc_ev_src _ _ _ _ _ hx with hx' | ⟨p, hp, hpx⟩
          · simp at hx'
          · rcases autoIter_value_src hp with ⟨pat, hpat, _, _⟩
            rw [← hpx]
            exact ⟨pat, hpat⟩
  exact main ops _ (by intro x hx; simp at hx)

/-- C6: with vocabulary canonical {"chad"} and alias "usa" mapped to
"united states of america", feeding the words i, love, usa, and, chad
tick by tick produces exactly the two events "united states of america"
then "chad", in that order; in general every emitted event carries a
canonical term stored as an automaton value (never the raw alias key),
occurrences are scanned in non-decreasing end-offset order, and a
tick's events follow occurrence order (they form a subsequence of the
occurrence values). -/
theorem c6_alias_resolves_to_canonical :
    (runSession (buildAutomaton [(r"chad").toList]
        [((r"usa").toList, (r"united states of america").toList)]) 500
      [Op.append [(r"i").toList], Op.tick, Op.append [(r"love").toList], Op.tick,
        Op.append [(r"usa").toList], Op.tick, Op.append [(r"and").toList], Op.tick,
        Op.append [(r"chad").toList], Op.tick]).events =
      [(r"united states of america").toList, (r"chad").toList] ∧
    (∀ (A : Automaton) (capacity : Nat) (ops : List Op),
      ∀ x ∈ (runSession A capacity ops).events, ∃ pat, (pat, x) ∈ A) ∧
    (∀ (A : Automaton) (text : List Char),
      (autoIter A text).Pairwise (fun a b => a.1 ≤ b.1)) ∧
    (∀ (A : Automaton) (buf g : List Word),
      ((matcherTick A buf g).2.1).Sublist ((autoIter A (joinWords buf)).map Prod.snd)) := by
  refine ⟨by decide, runSession_events_src, autoIter_sorted, ?_⟩
  intro A buf g
  rcases foldOcc_ev_sublist (autoIter A (joinWords buf)) g [] 0 with ⟨new, h1, h2⟩
  have : (matcherTick A buf g).2.1 =
      ((autoIter A (joinWords buf)).foldl stepOcc (g, [], 0)).2.1 := rfl
  rw [this, h1]
  simpa using h2

/-- Witness for C6 at a concrete event: the "united states of america"
event delivered for the spoken alias "usa" is indeed backed by a
pattern stored in the automaton. -/
theorem c6_alias_resolves_to_canonical_witness :
    ((r"united states of america").toList ∈
      (runSession (buildAutomaton [(r"chad").toList]
          [((r"usa").toList, (r"united states of america").toList)]) 500
        [Op.append [(r"i").toList], Op.tick, Op.append [(r"love").toList], Op.tick,
          Op.append [(r"usa").toList], Op.tick, Op.append [(r"and").toList], Op.tick,
          Op.append [(r"chad").toList], Op.tick]).events) ∧
    ∃ pat, (pat, (r"united states of america").toList) ∈
      buildAutomaton [(r"chad").toList]
        [((r"usa").toList, (r"united states of america").toList)] :=
  ⟨by decide,
    c6_alias_resolves_to_canonical.2.1 _ 500
      [Op.append [(r"i").toList], Op.tick, Op.append [(r"love").toList], Op.tick,
        Op.append [(r"usa").toList], Op.tick, Op.append [(r"and").toList], Op.tick,
        Op.append [(r"chad").toList], Op.tick]
      ((r"united states of america").toList) (by decide)⟩

/-! ## The consumption boundary within one tick (C8) -/

/-- `last_match_end_index` after the occurrence loop is the end index
of the last reported occurrence, plus one. -/
theorem foldOcc_last (occs : List (Nat × Word)) (hne : occs ≠ []) :
    ∀ g ev n, (occs.foldl stepOcc (g, ev, n)).2.2 = (occs.getLast hne).1 + 1 := by
  induction occs with
  | nil => exact absurd rfl hne
  | cons occ rest ih =>
    intro g ev n
    rw [List.foldl_cons]
    by_cases hr : rest = []
    · subst hr
      by_cases h : occ.2 ∈ g
      · rw [stepOcc_of_mem h]; simp
      · rw [stepOcc_of_not_mem h]; simp
    · rw [List.getLast_cons hr]
      by_cases h : occ.2 ∈ g
      · rw [stepOcc_of_mem h]; exact ih hr _ _ _
      · rw [stepOcc_of_not_mem h]; exact ih hr _ _ _

/-- In a list sorted by non-decreasing end offset, the last element's
end offset is the maximum. -/
theorem sorted_le_getLast {l : List (Nat × Word)}
    (hs : l.Pairwise (fun a b => a.1 ≤ b.1)) (hne : l ≠ []) :
    ∀ p ∈ l, p.1 ≤ (l.getLast hne).1 := by
  induction l with
  | nil => exact absurd rfl hne
  | cons a rest ih =>
    intro p hp
    rcases List.pairwise_cons.mp hs with ⟨ha, hrest⟩
    by_cases hr : rest = []
    · subst hr
      rw [List.mem_singleton] at hp
      subst hp
      exact le_refl _
    · rw [List.getLast_cons hr]
      rcases List.mem_cons.mp hp with hp | hp
      · subst hp; exact ha _ (List.getLast_mem hr)
      · exact ih hrest hr p hp

/-- When no word contains a space, the joined snapshot has exactly one
space per word boundary. -/
theorem joinWords_count_spaces : ∀ buf : List Word, buf ≠ [] →
    (∀ w ∈ buf, ' ' ∉ w) → countSpaces (joinWords buf) = buf.length - 1 := by
  intro buf
  induction buf with
  | nil => intro h; exact absurd rfl h
  | cons w rest ih =>
    intro _ hw
    cases rest with
    | nil =>
      have h1 : List.count ' ' w = 0 :=
        List.count_eq_zero.mpr (hw w (List.mem_cons_self _ _))
      simp only [joinWords, countSpaces]
      simpa using h1
    | cons w2 rest2 =>
      have h1 : List.count ' ' w = 0 :=
        List.count_eq_zero.mpr (hw w (List.mem_cons_self _ _))
      have h2 := ih (by simp) (fun x hx => hw x (List.mem_cons_of_mem _ hx))
      simp only [joinWords, countSpaces] at h2 ⊢
      rw [List.count_append, h1, List.count_cons_self, h2]
      simp only [List.length_cons]
      omega

/-- A snapshot of a non-empty buffer produces occurrences only if the
buffer is non-empty. -/
theorem autoIter_ne_nil_buf {A : Automaton} {buf : List Word}
    (h : autoIter A (joinWords buf) ≠ []) : buf ≠ [] := by
  intro hb
  subst hb
  exact h rfl

/-- C8: within one matcher tick that sees at least one occurrence, the
consumption boundary is the maximum end offset over all occurrences in
the snapshot — including occurrences of already-guessed terms — and the
number of words consumed equals the count of space separators in the
snapshot up to that offset, plus one. -/
theorem c8_consume_to_max_end (A : Automaton) (buf g : List Word)
    (hocc : autoIter A (joinWords buf) ≠ [])
    (hsp : ∀ w ∈ buf, ' ' ∉ w) :
    ∃ M, (∃ v, (M, v) ∈ autoIter A (joinWords buf)) ∧
      (∀ p ∈ autoIter A (joinWords buf), p.1 ≤ M) ∧
      ((autoIter A (joinWords buf)).foldl stepOcc (g, [], 0)).2.2 = M + 1 ∧
      numConsumed A buf g = countSpaces ((joinWords buf).take (M + 1)) + 1 ∧
      (matcherTick A buf g).2.2 =
        buf.drop (countSpaces ((joinWords buf).take (M + 1)) + 1) ∧
      buf.length - (matcherTick A buf g).2.2.length =
        countSpaces ((joinWords buf).take (M + 1)) + 1 := by
  have hlast3 : ((autoIter A (joinWords buf)).foldl stepOcc (g, [], 0)).2.2 =
      ((autoIter A (joinWords buf)).getLast hocc).1 + 1 :=
    foldOcc_last (autoIter A (joinWords buf)) hocc g [] 0
  have hmem : ((autoIter A (joinWords buf)).getLast hocc) ∈ autoIter A (joinWords buf) :=
    List.getLast_mem hocc
  have hmax : ∀ p ∈ autoIter A (joinWords buf),
      p.1 ≤ ((autoIter A (joinWords buf)).getLast hocc).1 :=
    sorted_le_getLast (autoIter_sorted A (joinWords buf)) hocc
  have hnum : numConsumed A buf g =
      countSpaces ((joinWords buf).take
        (((autoIter A (joinWords buf)).getLast hocc).1 + 1)) + 1 := by
    have hdef : numConsumed A buf g =
        if ((autoIter A (joinWords buf)).foldl stepOcc (g, [], 0)).2.2 > 0 then
          countSpaces ((joinWords buf).take
            ((autoIter A (joinWords buf)).foldl stepOcc (g, [], 0)).2.2) + 1
        else 0 := rfl
    rw [hdef, hlast3]
    simp
  have hbufne : buf ≠ [] := autoIter_ne_nil_buf hocc
  have hnle : numConsumed A buf g ≤ buf.length := by
    rw [hnum]
    have h1 : countSpaces ((joinWords buf).take
        (((autoIter A (joinWords buf)).getLast hocc).1 + 1)) ≤
        countSpaces (joinWords buf) :=
      List.Sublist.count_le (List.take_sublist _ _) ' '
    rw [joinWords_count_spaces buf hbufne hsp] at h1
    have h2 : 1 ≤ buf.length := by
      cases buf with
      | nil => exact absurd rfl hbufne
      | cons w rest => simp
    omega
  have hbuf2 : (matcherTick A buf g).2.2 = buf.drop (numConsumed A buf g) := by
    have : (matcherTick A buf g).2.2 = consume buf (numConsumed A buf g) := rfl
    rw [this, consume_eq_drop]
  refine ⟨((autoIter A (joinWords buf)).getLast hocc).1,
    ⟨((autoIter A (joinWords buf)).getLast hocc).2, hmem⟩,
    hmax, hlast3, hnum, ?_, ?_⟩
  · rw [hbuf2, hnum]
  · rw [hbuf2, List.length_drop, ← hnum]
    omega

/-- Witness for C8: the two-word buffer "chad x" against the vocabulary
{"chad"}; the single occurrence ends at offset 3 and exactly one word
is consumed. -/
theorem c8_consume_to_max_end_witness :
    (autoIter (buildAutomaton [(r"chad").toList] [])
        (joinWords [(r"chad").toList, (r"x").toList]) ≠ [] ∧
      ∀ w ∈ [(r"chad").toList, (r"x").toList], ' ' ∉ w) ∧
    ∃ M, (∃ v, (M, v) ∈ autoIter (buildAutomaton [(r"chad").toList] [])
        (joinWords [(r"chad").toList, (r"x").toList])) ∧
      (∀ p ∈ autoIter (buildAutomaton [(r"chad").toList] [])
        (joinWords [(r"chad").toList, (r"x").toList]), p.1 ≤ M) ∧
      ((autoIter (buildAutomaton [(r"chad").toList] [])
        (joinWords [(r"chad").toList, (r"x").toList])).foldl stepOcc
          ([], [], 0)).2.2 = M + 1 ∧
      numConsumed (buildAutomaton [(r"chad").toList] [])
          [(r"chad").toList, (r"x").toList] [] =
        countSpaces ((joinWords [(r"chad").toList, (r"x").toList]).take (M + 1)) + 1 ∧
      (matcherTick (buildAutomaton [(r"chad").toList] [])
          [(r"chad").toList, (r"x").toList] []).2.2 =
        ([(r"chad").toList, (r"x").toList] : List Word).drop
          (countSpaces ((joinWords [(r"chad").toList, (r"x").toList]).take (M + 1)) + 1) ∧
      ([(r"chad").toList, (r"x").toList] : List Word).length -
          (matcherTick (buildAutomaton [(r"chad").toList] [])
            [(r"chad").toList, (r"x").toList] []).2.2.length =
        countSpaces ((joinWords [(r"chad").toList, (r"x").toList]).take (M + 1)) + 1 :=
  ⟨⟨by decide, by decide⟩,
    c8_consume_to_max_end (buildAutomaton [(r"chad").toList] [])
      [(r"chad").toList, (r"x").toList] [] (by decide) (by decide)⟩

/-! ## Multi-word terms across tick boundaries (C4) -/

theorem matcherTick_events (A : Automaton) (buf g : List Word) :
    (matcherTick A buf g).2.1 =
      ((autoIter A (joinWords buf)).foldl stepOcc (g, [], 0)).2.1 := rfl

theorem joinWords_cons_ne_nil (w : Word) (ws : List Word) (h : ws ≠ []) :
    joinWords (w :: ws) ≠ [] := by
  cases ws with
  | nil => exact absurd rfl h
  | cons w2 tl => simp [joinWords]

theorem joinWords_append : ∀ xs ys : List Word, xs ≠ [] → ys ≠ [] →
    joinWords (xs ++ ys) = joinWords xs ++ ' ' :: joinWords ys := by
  intro xs
  induction xs with
  | nil => intro ys h _; exact absurd rfl h
  | cons w tl ih =>
    intro ys _ hys
    cases tl with
    | nil =>
      cases ys with
      | nil => exact absurd rfl hys
      | cons y yt => rfl
    | cons w2 tl2 =>
      calc joinWords ((w :: w2 :: tl2) ++ ys)
          = w ++ ' ' :: joinWords ((w2 :: tl2) ++ ys) := rfl
        _ = w ++ ' ' :: (joinWords (w2 :: tl2) ++ ' ' :: joinWords ys) := by
            rw [ih ys (by simp) hys]
        _ = (w ++ ' ' :: joinWords (w2 :: tl2)) ++ ' ' :: joinWords ys := by
            simp [List.append_assoc]
        _ = joinWords (w :: w2 :: tl2) ++ ' ' :: joinWords ys := rfl

/-- Counterexample for C4: vocabulary {"chad", "chad island"}; the
first producer tick delivers "chad" and a later one delivers "island".
The interim matcher tick sees the complete occurrence of "chad", whose
end offset reaches into the incomplete prefix of "chad island", so
consumption empties the buffer — the incomplete prefix IS removed —
and "chad island" is never recognized: the session's events are
exactly ["chad"]. -/
theorem c4_counterexample :
    (runSession (buildAutomaton [(r"chad").toList, (r"chad island").toList] []) 500
      [Op.append [(r"chad").toList], Op.tick]).buf = [] ∧
    (r"chad island").toList ∉
      (runSession (buildAutomaton [(r"chad").toList, (r"chad island").toList] []) 500
        [Op.append [(r"chad").toList], Op.tick,
          Op.append [(r"island").toList], Op.tick]).events ∧
    (runSession (buildAutomaton [(r"chad").toList, (r"chad island").toList] []) 500
      [Op.append [(r"chad").toList], Op.tick,
        Op.append [(r"island").toList], Op.tick]).events = [(r"chad").toList] := by
  refine ⟨by decide, by decide, by decide⟩

/-- C4 (amended): for a multi-word canonical term whose first word(s)
arrive in one tick and whose remainder arrives later, IF the interim
tick's consumption stays short of the term's incomplete prefix (in
particular whenever no occurrence ends at or past it — e.g. when the
snapshot has no occurrence at all), THEN the incomplete prefix survives
consumption as a suffix of the buffer, and once the remaining words are
appended the next tick recognizes the term and emits it (it not having
been guessed before).  Unrestricted, the claim fails: an occurrence
ending inside the prefix makes consumption discard it
(`c4_counterexample`). -/
theorem c4_split_term_recognized (A : Automaton) (capacity : Nat)
    (g pre pw rest : List Word) (pat v : Word)
    (hpw : pw ≠ []) (hrest : rest ≠ [])
    (hA : (pat, v) ∈ A)
    (hpat : pat = joinWords (pw ++ rest))
    (hcons : numConsumed A (pre ++ pw) g ≤ pre.length)
    (hcap : pre.length + pw.length + rest.length ≤ capacity)
    (hv : v ∉ (matcherTick A (pre ++ pw) g).1) :
    pw <:+ (matcherTick A (pre ++ pw) g).2.2 ∧
    v ∈ (matcherTick A
      (appendBatch capacity (matcherTick A (pre ++ pw) g).2.2 rest)
      (matcherTick A (pre ++ pw) g).1).2.1 := by
  have hbuf2 : (matcherTick A (pre ++ pw) g).2.2 =
      pre.drop (numConsumed A (pre ++ pw) g) ++ pw := by
    have h0 : (matcherTick A (pre ++ pw) g).2.2 =
        consume (pre ++ pw) (numConsumed A (pre ++ pw) g) := rfl
    rw [h0, consume_eq_drop, List.drop_append_of_le_length hcons]
  constructor
  · rw [hbuf2]
    exact ⟨pre.drop (numConsumed A (pre ++ pw) g), rfl⟩
  · have happ : appendBatch capacity (matcherTick A (pre ++ pw) g).2.2 rest =
        (matcherTick A (pre ++ pw) g).2.2 ++ rest := by
      simp only [appendBatch]
      have hz : ((matcherTick A (pre ++ pw) g).2.2 ++ rest).length - capacity = 0 := by
        rw [hbuf2]
        simp only [List.length_append, List.length_drop]
        omega
      rw [hz, List.drop_zero]
    rw [happ, hbuf2, List.append_assoc]
    have hpatne : pat ≠ [] := by
      rw [hpat]
      cases pw with
      | nil => exact absurd rfl hpw
      | cons w pwtl =>
        have : (w :: pwtl) ++ rest = w :: (pwtl ++ rest) := rfl
        rw [this]
        apply joinWords_cons_ne_nil
        intro hcontra
        rcases List.append_eq_nil.mp hcontra with ⟨_, h2⟩
        exact hrest h2
    have hinf : pat <:+:
        joinWords (pre.drop (numConsumed A (pre ++ pw) g) ++ (pw ++ rest)) := by
      cases hd : pre.drop (numConsumed A (pre ++ pw) g) with
      | nil =>
        rw [List.nil_append, ← hpat]
      | cons a tl =>
        rw [joinWords_append (a :: tl) (pw ++ rest) (by simp)
          (by intro hcontra; rcases List.append_eq_nil.mp hcontra with ⟨h1, _⟩; exact hpw h1)]
        apply List.IsSuffix.isInfix
        rw [← hpat]
        exact List.IsSuffix.trans ⟨[' '], rfl⟩ (List.suffix_append _ _)
    rcases autoIter_complete hA hpatne hinf with ⟨i, hi⟩
    have hval := foldOcc_occ_mem
      (autoIter A (joinWords (pre.drop (numConsumed A (pre ++ pw) g) ++ (pw ++ rest))))
      (matcherTick A (pre ++ pw) g).1 [] 0 (i, v) hi
    rcases foldOcc_guessed_src _ _ _ _ _ hval with h | h
    · exact absurd h hv
    · rw [matcherTick_events]
      exact h

/-- Witness for C4 (amended): vocabulary {"united states"}; the buffer
holds "hello united" when the interim tick runs (no occurrence, nothing
consumed), then "states" arrives; the prefix "united" survived and the
term is recognized by the next tick. -/
theorem c4_split_term_recognized_witness :
    numConsumed (buildAutomaton [(r"united states").toList] [])
        ([(r"hello").toList] ++ [(r"united").toList]) [] ≤
      ([(r"hello").toList] : List Word).length ∧
    (r"united states").toList ∉
      (matcherTick (buildAutomaton [(r"united states").toList] [])
        ([(r"hello").toList] ++ [(r"united").toList]) []).1 ∧
    ([(r"united").toList] : List Word) <:+
      (matcherTick (buildAutomaton [(r"united states").toList] [])
        ([(r"hello").toList] ++ [(r"united").toList]) []).2.2 ∧
    (r"united states").toList ∈
      (matcherTick (buildAutomaton [(r"united states").toList] [])
        (appendBatch 500
          (matcherTick (buildAutomaton [(r"united states").toList] [])
            ([(r"hello").toList] ++ [(r"united").toList]) []).2.2
          [(r"states").toList])
        (matcherTick (buildAutomaton [(r"united states").toList] [])
          ([(r"hello").toList] ++ [(r"united").toList]) []).1).2.1 := by
  have h := c4_split_term_recognized (buildAutomaton [(r"united states").toList] []) 500
    [] [(r"hello").toList] [(r"united").toList] [(r"states").toList]
    ((r"united states").toList) ((r"united states").toList)
    (by decide) (by decide) (by decide) (by decide) (by decide) (by decide) (by decide)
  exact ⟨by decide, by decide, h.1, h.2⟩

/-! ## Identical pattern text: last insertion wins (C7) -/

theorem add_word_lookup_self (A : Automaton) (k v : Word) :
    (A.add_word k v).lookup k = some v := by
  rw [Automaton.add_word]
  induction A with
  | nil => simp [List.lookup]
  | cons p rest ih =>
    obtain ⟨pk, pv⟩ := p
    by_cases h : pk = k
    · simpa [List.filter_cons, h] using ih
    · have hb : (k == pk) = false := beq_eq_false_iff_ne.mpr (Ne.symm h)
      simpa [List.filter_cons, h, List.lookup, hb] using ih

theorem add_word_lookup_ne (A : Automaton) (k v k' : Word) (h : k' ≠ k) :
    (A.add_word k v).lookup k' = A.lookup k' := by
  have hb : (k' == k) = false := beq_eq_false_iff_ne.mpr h
  rw [Automaton.add_word]
  induction A with
  | nil => simp [List.lookup, hb]
  | cons p rest ih =>
    obtain ⟨pk, pv⟩ := p
    by_cases hp : pk = k
    · subst hp
      simpa [List.filter_cons, List.lookup, hb] using ih
    · by_cases hk : k' = pk
      · subst hk
        simp [List.filter_cons, hp, List.lookup]
      · have hb2 : (k' == pk) = false := beq_eq_false_iff_ne.mpr hk
        simpa [List.filter_cons, hp, List.lookup, hb2] using ih

theorem foldl_add_word_lookup_not_mem (l : List (Word × Word)) :
    ∀ (A : Automaton) (p : Word), p ∉ l.map Prod.fst →
      (l.foldl (fun B q => B.add_word q.1 q.2) A).lookup p = A.lookup p := by
  induction l with
  | nil => intro A p _; rfl
  | cons q rest ih =>
    intro A p h
    rw [List.map_cons] at h
    have h1 : p ≠ q.1 := fun hc => h (hc ▸ List.mem_cons_self _ _)
    have h2 : p ∉ rest.map Prod.fst := fun hc => h (List.mem_cons_of_mem _ hc)
    rw [List.foldl_cons, ih _ p h2, add_word_lookup_ne _ _ _ _ h1]

theorem foldl_add_word_lookup_mem (l : List (Word × Word)) :
    ∀ (A : Automaton) (p v : Word), (p, v) ∈ l → (l.map Prod.fst).Nodup →
      (l.foldl (fun B q => B.add_word q.1 q.2) A).lookup p = some v := by
  induction l with
  | nil => intro A p v h _; simp at h
  | cons q rest ih =>
    intro A p v h hnd
    rw [List.map_cons, List.nodup_cons] at hnd
    rw [List.foldl_cons]
    rcases List.mem_cons.mp h with h | h
    · have hq1 : q.1 = p := by rw [← h]
      have hq2 : q.2 = v := by rw [← h]
      have hpn : p ∉ rest.map Prod.fst := hq1 ▸ hnd.1
      rw [foldl_add_word_lookup_not_mem rest _ p hpn, ← hq1, ← hq2,
        add_word_lookup_self]
    · exact ih _ p v h hnd.2

/-- C7: when a pattern string is registered both as a canonical term and
as an alias key, the compiled automaton resolves it to the alias's
mapped canonical term: for identical pattern text the last insertion
wins (second conjunct), and `load_and_build_automaton` registers all
aliases after all canonical names, so the alias's value is what the
lookup returns (first conjunct). -/
theorem c7_alias_wins_on_identical_pattern (country_names : List Word)
    (alternates : List (Word × Word)) (p v : Word)
    (_hc : p ∈ country_names)
    (ha : (p, v) ∈ alternates)
    (hnd : (alternates.map Prod.fst).Nodup) :
    (buildAutomaton country_names alternates).lookup p = some v ∧
    ∀ (A : Automaton) (k w : Word), (A.add_word k w).lookup k = some w := by
  refine ⟨?_, add_word_lookup_self⟩
  rw [buildAutomaton]
  exact foldl_add_word_lookup_mem alternates _ p v ha hnd

/-- Witness for C7: "chad" registered as a canonical term and also as
an alias mapping to "tchad"; the automaton resolves the pattern "chad"
to "tchad". -/
theorem c7_alias_wins_on_identical_pattern_witness :
    ((r"chad").toList ∈ [(r"chad").toList] ∧
      ((r"chad").toList, (r"tchad").toList) ∈
        [((r"chad").toList, (r"tchad").toList)] ∧
      (([((r"chad").toList, (r"tchad").toList)].map Prod.fst)).Nodup) ∧
    (buildAutomaton [(r"chad").toList]
      [((r"chad").toList, (r"tchad").toList)]).lookup (r"chad").toList =
      some (r"tchad").toList :=
  ⟨⟨by decide, by decide, by decide⟩,
    (c7_alias_wins_on_identical_pattern [(r"chad").toList]
      [((r"chad").toList, (r"tchad").toList)] ((r"chad").toList) ((r"tchad").toList)
      (by decide) (by decide) (by decide)).1⟩

/-! ## State change precedes the send; no rollback on a send error (C10) -/

theorem processOccsF_of_aborted (sendOk : Word → Bool) :
    ∀ (occs : List (Nat × Word)) (st : MState), st.aborted = true →
      processOccsF sendOk st occs = st := by
  intro occs
  induction occs with
  | nil => intro st _; rfl
  | cons occ rest ih =>
    intro st h
    have hs : stepOccF sendOk st occ = st := by simp [stepOccF, h]
    have hunf : processOccsF sendOk st (occ :: rest) =
        processOccsF sendOk (stepOccF sendOk st occ) rest := rfl
    rw [hunf, hs]
    exact ih st h

theorem processOccsF_fail_core (sendOk : Word → Bool) (t : Word)
    (hok : ∀ u, u ≠ t → sendOk u = true) (hfail : sendOk t = false) :
    ∀ (occs : List (Nat × Word)) (g ev : List Word),
      t ∉ g → t ∉ ev → (∃ e, (e, t) ∈ occs) →
      t ∈ (processOccsF sendOk ⟨g, ev, false⟩ occs).g ∧
      t ∉ (processOccsF sendOk ⟨g, ev, false⟩ occs).ev ∧
      (processOccsF sendOk ⟨g, ev, false⟩ occs).aborted = true := by
  intro occs
  induction occs with
  | nil =>
    intro g ev _ _ h
    rcases h with ⟨e, he⟩
    simp at he
  | cons occ rest ih =>
    intro g ev hg hev h
    have hunf : processOccsF sendOk ⟨g, ev, false⟩ (occ :: rest) =
        processOccsF sendOk (stepOccF sendOk ⟨g, ev, false⟩ occ) rest := rfl
    rw [hunf]
    by_cases hmem : occ.2 ∈ g
    · have hs : stepOccF sendOk ⟨g, ev, false⟩ occ = ⟨g, ev, false⟩ := by
        simp [stepOccF, hmem]
      rw [hs]
      apply ih g ev hg hev
      rcases h with ⟨e, he⟩
      rcases List.mem_cons.mp he with he | he
      · exfalso
        rw [← he] at hmem
        exact hg hmem
      · exact ⟨e, he⟩
    · by_cases ht : occ.2 = t
      · have hf2 : sendOk occ.2 = false := by rw [ht]; exact hfail
        have hs : stepOccF sendOk ⟨g, ev, false⟩ occ = ⟨occ.2 :: g, ev, true⟩ := by
          simp [stepOccF, hmem, hf2]
        rw [hs, processOccsF_of_aborted sendOk rest _ rfl]
        refine ⟨?_, hev, rfl⟩
        rw [ht]
        exact List.mem_cons_self _ _
      · have hsend : sendOk occ.2 = true := hok _ ht
        have hs : stepOccF sendOk ⟨g, ev, false⟩ occ =
            ⟨occ.2 :: g, ev ++ [occ.2], false⟩ := by
          simp [stepOccF, hmem, hsend]
        rw [hs]
        apply ih
        · intro hc
          rcases List.mem_cons.mp hc with hc | hc
          · exact ht hc.symm
          · exact hg hc
        · intro hc
          rcases List.mem_append.mp hc with hc | hc
          · exact hev hc
          · rw [List.mem_singleton] at hc
            exact ht hc.symm
        · rcases h with ⟨e, he⟩
          rcases List.mem_cons.mp he with he | he
          · exact absurd (congrArg Prod.snd he.symm) ht
          · exact ⟨e, he⟩

/-- C10: a newly recognized canonical term is added to the session's
guessed set strictly before the event send is awaited; if that send
raises, the term stays in the set, its event is never delivered, the
matcher loop aborts, and from an aborted state no further event is ever
delivered in the session. -/
theorem c10_add_before_send (A : Automaton) (text : List Char)
    (sendOk : Word → Bool) (g : List Word) (t : Word) (e : Nat)
    (hg : t ∉ g)
    (hocc : (e, t) ∈ autoIter A text)
    (hok : ∀ u, u ≠ t → sendOk u = true)
    (hfail : sendOk t = false) :
    t ∈ (processOccsF sendOk ⟨g, [], false⟩ (autoIter A text)).g ∧
    t ∉ (processOccsF sendOk ⟨g, [], false⟩ (autoIter A text)).ev ∧
    (processOccsF sendOk ⟨g, [], false⟩ (autoIter A text)).aborted = true ∧
    ∀ (later : List (Nat × Word)) (st : MState), st.aborted = true →
      (processOccsF sendOk st later).ev = st.ev := by
  rcases processOccsF_fail_core sendOk t hok hfail (autoIter A text) g []
    hg (by simp) ⟨e, hocc⟩ with ⟨h1, h2, h3⟩
  refine ⟨h1, h2, h3, ?_⟩
  intro later st hst
  rw [processOccsF_of_aborted sendOk later st hst]

/-- Witness for C10: vocabulary {"chad"}, snapshot "chad", a send
function that fails exactly on "chad": after the tick the term is in
the guessed set, no event for it was delivered, and the loop aborted. -/
theorem c10_add_before_send_witness :
    ((r"chad").toList ∉ ([] : List Word) ∧
      (3, (r"chad").toList) ∈ autoIter (buildAutomaton [(r"chad").toList] [])
        (joinWords [(r"chad").toList]) ∧
      (fun u => decide (u ≠ (r"chad").toList)) ((r"chad").toList) = false) ∧
    ((r"chad").toList ∈ (processOccsF (fun u => decide (u ≠ (r"chad").toList))
        ⟨[], [], false⟩ (autoIter (buildAutomaton [(r"chad").toList] [])
          (joinWords [(r"chad").toList]))).g ∧
      (r"chad").toList ∉ (processOccsF (fun u => decide (u ≠ (r"chad").toList))
        ⟨[], [], false⟩ (autoIter (buildAutomaton [(r"chad").toList] [])
          (joinWords [(r"chad").toList]))).ev ∧
      (processOccsF (fun u => decide (u ≠ (r"chad").toList))
        ⟨[], [], false⟩ (autoIter (buildAutomaton [(r"chad").toList] [])
          (joinWords [(r"chad").toList]))).aborted = true) := by
  have h := c10_add_before_send (buildAutomaton [(r"chad").toList] [])
    (joinWords [(r"chad").toList]) (fun u => decide (u ≠ (r"chad").toList))
    [] ((r"chad").toList) 3 (by decide) (by decide)
    (fun u hu => decide_eq_true hu) (by decide)
  exact ⟨⟨by decide, by decide, by decide⟩, h.1, h.2.1, h.2.2.1⟩
